import Mathlib

/-!
Verification of the TruthVerifier fuzzy-matching core.

The embedding models the TypeScript class TruthVerifier and its helpers:
text normalization, significant-word extraction, corpus loading with an
inverted token index, candidate ranking, bigram similarity scoring, and
the findMatch verdict.  Strings are modelled as List Char, JavaScript
numbers as Nat and similarity scores as rationals, the Map and Set
collections as insertion-ordered association lists and duplicate-free
lists, and the asynchronous file read plus JSON parse of load as an
Except value passed in by the caller.
-/

/-- The characters matched by the JavaScript regex class \s (whitespace). -/
def isSpaceJS (c : Char) : Bool :=
  decide (c ∈ [' ', '\t', '\n', '\u000B', '\u000C', '\r', '\u00A0',
    '\u1680', '\u2000', '\u2001', '\u2002', '\u2003', '\u2004', '\u2005',
    '\u2006', '\u2007', '\u2008', '\u2009', '\u200A', '\u2028', '\u2029',
    '\u202F', '\u205F', '\u3000', '\uFEFF'])

/-- ASCII letters and digits. -/
def isAsciiAlphanum (c : Char) : Bool :=
  decide ((97 ≤ c.toNat ∧ c.toNat ≤ 122) ∨ (65 ≤ c.toNat ∧ c.toNat ≤ 90) ∨
    (48 ≤ c.toNat ∧ c.toNat ≤ 57))

/-- The characters matched by the JavaScript regex class \w:
ASCII letters, digits and the underscore. -/
def isWordChar (c : Char) : Bool :=
  isAsciiAlphanum c || decide (c = '_')

/-- Pointwise form of the global single-character replacement
text.replace(/a/g, b). -/
def replCharF (a b c : Char) : Char :=
  if c = a then b else c

/-- The global single-character replacement text.replace(/a/g, b). -/
def replChar (a b : Char) (s : List Char) : List Char :=
  s.map (replCharF a b)

/-- text.toLowerCase(), modelled on ASCII letters via Char.toLower. -/
def lowerAll (s : List Char) : List Char :=
  s.map Char.toLower

/-- The three OCR replacements of normalizeText, in source order:
.replace(/\|/g, 'i').replace(/0/g, 'o').replace(/1/g, 'l'). -/
def ocrFix (s : List Char) : List Char :=
  replChar '1' 'l' (replChar '0' 'o' (replChar '|' 'i' s))

/-- The characters of the literal scheme part https:// of the URL regex. -/
def httpsScheme : List Char := ['h', 't', 't', 'p', 's', ':', '/', '/']

/-- The characters of the literal scheme part http:// of the URL regex. -/
def httpScheme : List Char := ['h', 't', 't', 'p', ':', '/', '/']

/-- Length of the match of the regex https?:\/\/[^\s]+ at the start of s,
and 0 when the regex does not match there.  The optional s is greedy, and
[^\s]+ takes the maximal run of at least one non-whitespace character. -/
def urlMatchLen (s : List Char) : Nat :=
  if s.take 8 = httpsScheme then
    match (s.drop 8).takeWhile (fun c => !isSpaceJS c) with
    | [] => 0
    | body => 8 + body.length
  else if s.take 7 = httpScheme then
    match (s.drop 7).takeWhile (fun c => !isSpaceJS c) with
    | [] => 0
    | body => 7 + body.length
  else 0

/-- Left-to-right global removal of URL matches, as in
text.replace(/https?:\/\/[^\s]+/g, '').  The fuel argument bounds the
number of steps; every step consumes at least one character, so fuel
equal to the length of the list always suffices. -/
def removeUrlsAux : Nat → List Char → List Char
  | _, [] => []
  | 0, s => s
  | fuel + 1, c :: cs =>
    let n := urlMatchLen (c :: cs)
    if n = 0 then c :: removeUrlsAux fuel cs
    else removeUrlsAux fuel ((c :: cs).drop n)

/-- text.replace(/https?:\/\/[^\s]+/g, ''). -/
def removeUrls (s : List Char) : List Char :=
  removeUrlsAux s.length s

/-- text.replace(/[^\w\s]/g, ' '). -/
def replaceSpecial (s : List Char) : List Char :=
  s.map (fun c => if isWordChar c || isSpaceJS c then c else ' ')

/-- text.replace(/\s+/g, ' '): every maximal whitespace run becomes a
single space.  The flag records whether the previous character was part
of a whitespace run whose replacement space was already emitted. -/
def collapseWsAux : Bool → List Char → List Char
  | _, [] => []
  | prevSpace, c :: cs =>
    if isSpaceJS c then
      if prevSpace then collapseWsAux true cs
      else ' ' :: collapseWsAux true cs
    else c :: collapseWsAux false cs

/-- text.replace(/\s+/g, ' '). -/
def collapseWs (s : List Char) : List Char :=
  collapseWsAux false s

/-- text.trim(): drop whitespace from both ends. -/
def trimWs (s : List Char) : List Char :=
  ((s.dropWhile isSpaceJS).reverse.dropWhile isSpaceJS).reverse

/-- TruthVerifier.normalizeText: lowercase, fix common OCR errors,
remove URLs, remove special characters, collapse whitespace, trim. -/
def normalizeText (s : List Char) : List Char :=
  trimWs (collapseWs (replaceSpecial (removeUrls (ocrFix (lowerAll s)))))

/-- normalizedText.split(' '): split on single space characters.
Splitting the empty string yields one empty word, as in JavaScript. -/
def splitOnSpace : List Char → List (List Char)
  | [] => [[]]
  | c :: cs =>
    match splitOnSpace cs with
    | [] => [[c]]
    | w :: ws => if c = ' ' then [] :: w :: ws else (c :: w) :: ws

/-- The STOP_WORDS set of the source, as a list of words. -/
def STOP_WORDS : List (List Char) :=
  (["a", "an", "the", "and", "or", "but", "in", "on", "at", "to", "for",
    "of", "with", "by", "from", "is", "are", "was", "were", "be", "been",
    "being", "have", "has", "had", "do", "does", "did", "will", "would",
    "could", "should", "may", "might", "must", "shall", "can", "this",
    "that", "these", "those", "i", "you", "he", "she", "it", "we", "they",
    "what", "which", "who", "whom", "whose", "where", "when", "why", "how",
    "all", "each", "every", "both", "few", "more", "most", "other", "some",
    "such", "no", "not", "only", "same", "so", "than", "too", "very",
    "just", "as", "if", "into", "through", "during", "before", "after",
    "above", "below", "between", "under", "again", "further", "then",
    "once", "here", "there", "any", "our", "out", "up", "down", "off",
    "over", "own", "about", "against", "because", "until", "while", "also",
    "even", "get", "got", "go", "going", "make", "made", "now", "well",
    "way", "back", "still", "since", "am", "my", "your", "his", "her",
    "its", "their", "me", "him", "us", "them"] : List String).map String.data

/-- significant.add(word): a JavaScript Set keeps the first insertion and
preserves insertion order. -/
def insertWord (l : List (List Char)) (w : List Char) : List (List Char) :=
  if w ∈ l then l else l ++ [w]

/-- TruthVerifier.extractSignificantWords: split on spaces, keep words of
length at least 4 outside the stop-word set, collect into a set. -/
def extractSignificantWords (s : List Char) : List (List Char) :=
  ((splitOnSpace s).filter
    (fun w => decide (4 ≤ w.length) && !(STOP_WORDS.contains w))).foldl
    insertWord []

/-- The TruthPost record of the corpus JSON. -/
structure TruthPost where
  id : List Char
  created_at : List Char
  content : List Char
  url : List Char
  media : List (List Char)
  replies_count : Nat
  reblogs_count : Nat
  favourites_count : Nat
deriving DecidableEq

/-- The IndexedPost record derived from a TruthPost at load time. -/
structure IndexedPost where
  index : Nat
  words : List (List Char)
  normalizedContent : List Char
deriving DecidableEq

/-- The VerificationResult returned by findMatch. -/
structure VerificationResult where
  verified : Bool
  post : Option TruthPost
  similarity : ℚ
  ocrText : List Char
deriving DecidableEq

/-- The mutable state of a TruthVerifier instance.  wordIndex models the
JavaScript Map as an insertion-ordered association list from a token to
its posting list of record positions. -/
structure TruthVerifier where
  posts : List TruthPost
  indexedPosts : List IndexedPost
  wordIndex : List (List Char × List Nat)
  loaded : Bool
deriving DecidableEq

/-- A freshly constructed TruthVerifier. -/
def initVerifier : TruthVerifier :=
  { posts := [], indexedPosts := [], wordIndex := [], loaded := false }

/-- Map.get on the word index (first matching key). -/
def alistFind (m : List (List Char × List Nat)) (w : List Char) :
    Option (List Nat) :=
  match m with
  | [] => none
  | (k, l) :: rest => if k = w then some l else alistFind rest w

/-- The posting-list update of load: if the index has no entry for the
word, create an empty one, then push the record position onto it.  A
JavaScript Map appends newly created keys in insertion order. -/
def alistAppend (m : List (List Char × List Nat)) (w : List Char)
    (i : Nat) : List (List Char × List Nat) :=
  match m with
  | [] => [(w, [i])]
  | (k, l) :: rest =>
    if k = w then (k, l ++ [i]) :: rest else (k, l) :: alistAppend rest w i

/-- One iteration of the index-building loop of load, for the post at
position i. -/
def indexPost (v : TruthVerifier) (i : Nat) (post : TruthPost) :
    TruthVerifier :=
  let nc := normalizeText post.content
  let ws := extractSignificantWords nc
  { v with
    indexedPosts :=
      v.indexedPosts ++ [{ index := i, words := ws, normalizedContent := nc }],
    wordIndex := ws.foldl (fun m w => alistAppend m w i) v.wordIndex }

/-- The body of load after a successful read and parse: store the posts,
build the per-post derived data and the inverted index, set loaded. -/
def buildOn (v : TruthVerifier) (posts : List TruthPost) : TruthVerifier :=
  let v1 := (posts.enum.foldl (fun acc p => indexPost acc p.1 p.2)
    { v with posts := posts })
  { v1 with loaded := true }

/-- TruthVerifier.load.  The outcome of reading and parsing the corpus
file is supplied as src; the result pairs the verifier state after the
call with the outcome of the call. -/
def load (v : TruthVerifier) (src : Except String (List TruthPost)) :
    TruthVerifier × Except String Unit :=
  if v.loaded then (v, Except.ok ())
  else
    match src with
    | Except.error e => (v, Except.error e)
    | Except.ok posts => (buildOn v posts, Except.ok ())

/-- candidateScores.set(idx, (candidateScores.get(idx) || 0) + 1),
preserving Map insertion order. -/
def mapInc (m : List (Nat × Nat)) (k : Nat) : List (Nat × Nat) :=
  match m with
  | [] => [(k, 1)]
  | (k1, v) :: rest =>
    if k1 = k then (k1, v + 1) :: rest else (k1, v) :: mapInc rest k

/-- TruthVerifier.findCandidates: for every query word found in the
index, bump the counter of every record position on its posting list. -/
def findCandidates (v : TruthVerifier) (queryWords : List (List Char)) :
    List (Nat × Nat) :=
  queryWords.foldl
    (fun m w =>
      match alistFind v.wordIndex w with
      | some postIndices => postIndices.foldl mapInc m
      | none => m) []

/-- Map.get on a candidate-score map. -/
def scoreFind (m : List (Nat × Nat)) (k : Nat) : Option Nat :=
  match m with
  | [] => none
  | (k1, v) :: rest => if k1 = k then some v else scoreFind rest k

/-- Stable insertion of one entry into a list sorted by count descending:
the entry goes after every entry with a greater or equal count, which is
where the stable JavaScript Array.prototype.sort with comparator
(a, b) => b[1] - a[1] places it. -/
def insertByCountDesc (x : Nat × Nat) :
    List (Nat × Nat) → List (Nat × Nat)
  | [] => [x]
  | y :: ys => if y.2 < x.2 then x :: y :: ys else y :: insertByCountDesc x ys

/-- The stable sort by shared-word count descending used on the
candidate entries. -/
def sortByCountDesc (l : List (Nat × Nat)) : List (Nat × Nat) :=
  l.foldl (fun acc x => insertByCountDesc x acc) []

/-- The overlapping character bigrams of a string; empty when the string
has fewer than two characters. -/
def bigrams : List Char → List (Char × Char)
  | a :: b :: rest => (a, b) :: bigrams (b :: rest)
  | _ => []

/-- Modelled from the spec: the similarity scorer used by findMatch is
compareTwoStrings of the string-similarity npm package, a third-party
dependency whose source is not part of this repository.  Per the spec it is the Dice
coefficient on character bigrams: twice the size of the multiset
intersection of the bigrams divided by the total bigram count, and 0
when both bigram counts are zero. -/
def compareTwoStrings (a b : List Char) : ℚ :=
  if (bigrams a).length + (bigrams b).length = 0 then 0
  else (2 * (((bigrams a).bagInter (bigrams b)).length : ℚ)) /
    (((bigrams a).length : ℚ) + ((bigrams b).length : ℚ))

/-- SIMILARITY_THRESHOLD = 0.7, modelled as an exact rational. -/
def SIMILARITY_THRESHOLD : ℚ := 7 / 10

/-- indexedPosts[i].normalizedContent. -/
def contentAt (v : TruthVerifier) (i : Nat) : List Char :=
  match v.indexedPosts.get? i with
  | some ip => ip.normalizedContent
  | none => []

/-- indexedPosts[i].words. -/
def wordsAt (v : TruthVerifier) (i : Nat) : List (List Char) :=
  match v.indexedPosts.get? i with
  | some ip => ip.words
  | none => []

/-- One iteration of the best-match scan of findMatch: update the best
candidate when the similarity of the current candidate is strictly
greater, so the first candidate in rank order wins exact ties. -/
def bestStep (v : TruthVerifier) (nq : List Char)
    (best : Option (Nat × ℚ)) (cand : Nat × Nat) : Option (Nat × ℚ) :=
  let sim := compareTwoStrings nq (contentAt v cand.1)
  match best with
  | none => some (cand.1, sim)
  | some (bi, bs) => if bs < sim then some (cand.1, sim) else some (bi, bs)

/-- The failure of a query operation called before load. -/
inductive VerifyError
  | notLoaded
deriving DecidableEq

/-- TruthVerifier.findMatch. -/
def findMatch (v : TruthVerifier) (ocrText : List Char) :
    Except VerifyError VerificationResult :=
  if v.loaded then
    let normalizedOcr := normalizeText ocrText
    let ocrWords := extractSignificantWords normalizedOcr
    if ocrWords = [] then
      Except.ok { verified := false, post := none, similarity := 0, ocrText := ocrText }
    else
      let sortedCandidates :=
        (sortByCountDesc (findCandidates v ocrWords)).take 50
      if sortedCandidates = [] then
        Except.ok { verified := false, post := none, similarity := 0, ocrText := ocrText }
      else
        match sortedCandidates.foldl (bestStep v normalizedOcr) none with
        | none =>
          Except.ok { verified := false, post := none, similarity := 0, ocrText := ocrText }
        | some (bi, bs) =>
          if SIMILARITY_THRESHOLD ≤ bs then
            Except.ok
              { verified := true, post := v.posts.get? bi,
                similarity := bs, ocrText := ocrText }
          else
            Except.ok
              { verified := false, post := v.posts.get? bi,
                similarity := bs, ocrText := ocrText }
  else Except.error VerifyError.notLoaded

/-- The candidate shortlist computed inside findMatch for a query. -/
def candList (v : TruthVerifier) (q : List Char) : List (Nat × Nat) :=
  (sortByCountDesc
    (findCandidates v (extractSignificantWords (normalizeText q)))).take 50

/-- The best bigram similarity over the candidate shortlist of a query,
0 when the shortlist is empty. -/
def bestSim (v : TruthVerifier) (q : List Char) : ℚ :=
  ((candList v q).map
    (fun c => compareTwoStrings (normalizeText q) (contentAt v c.1))).foldl
    max 0

/-- The rank score of the record at position i for a query word set. -/
def rankScore (v : TruthVerifier) (queryWords : List (List Char))
    (i : Nat) : Nat :=
  (scoreFind (findCandidates v queryWords) i).getD 0

deriving instance DecidableEq for Except

/-- The OCR substitutions of spec section 4.1 as one context-free
single-character substitution, applied to every occurrence. -/
def specSubst (c : Char) : Char :=
  if c = '|' then 'i' else if c = '0' then 'o' else if c = '1' then 'l' else c

/-- The normalizer as the claim words it: lowercase, apply the OCR
substitutions everywhere, strip URL-like substrings, replace every
character that is not alphanumeric or whitespace with a space, collapse
whitespace runs and trim. -/
def normalizeTextSpecStrict (s : List Char) : List Char :=
  trimWs (collapseWs
    ((removeUrls ((s.map Char.toLower).map specSubst)).map
      (fun c => if isAsciiAlphanum c || isSpaceJS c then c else ' ')))

/-- The normalizer with the claim amended at the replacement step:
a character survives when it is alphanumeric, an underscore, or
whitespace; every other character becomes a space. -/
def normalizeTextSpecAmended (s : List Char) : List Char :=
  trimWs (collapseWs
    ((removeUrls ((s.map Char.toLower).map specSubst)).map
      (fun c =>
        if isAsciiAlphanum c || decide (c = '_') || isSpaceJS c then c
        else ' ')))

/-- The characters that can occur in the output of normalizeText: a
single space, or a word character that is not an ASCII capital letter
and not one of the digits replaced by the OCR substitutions. -/
def NormChar (c : Char) : Prop :=
  c = ' ' ∨ (isWordChar c = true ∧ ¬(65 ≤ c.toNat ∧ c.toNat ≤ 90) ∧
    c ≠ '0' ∧ c ≠ '1')

/-- Adjacent characters are never both whitespace. -/
def NoTwoSpaces (a b : Char) : Prop :=
  ¬(isSpaceJS a = true ∧ isSpaceJS b = true)

/-- Notational helper turning a string literal into its character list. -/
def toL (s : String) : List Char := s.data

/-- A sample corpus record used to exercise the definitions. -/
def samplePost : TruthPost :=
  { id := toL "100", created_at := toL "2024-01-01T00:00:00Z",
    content := toL "The quick brown fox jumps over the lazy dog!",
    url := toL "https://example.com/100", media := [],
    replies_count := 1, reblogs_count := 2, favourites_count := 3 }

/-- The verifier state after loading the one-record sample corpus. -/
def sampleVerifier : TruthVerifier := buildOn initVerifier [samplePost]

/-! ### Basic facts about findMatch branches -/

theorem loaded_of_load_ok (v : TruthVerifier)
    (src : Except String (List TruthPost)) (v' : TruthVerifier)
    (h : load v src = (v', Except.ok ())) : v'.loaded = true := by
  unfold load at h
  split at h
  · next hl =>
      obtain ⟨rfl, -⟩ := Prod.mk.injEq .. ▸ h
      simpa using hl
  · split at h
    · exact absurd (congrArg Prod.snd h) (by simp)
    · obtain ⟨rfl, -⟩ := Prod.mk.injEq .. ▸ h
      rfl

theorem findMatch_ok_of_loaded (v : TruthVerifier) (q : List Char)
    (hl : v.loaded = true) : ∃ r, findMatch v q = Except.ok r := by
  unfold findMatch
  rw [hl]
  simp only [if_true]
  split
  · exact ⟨_, rfl⟩
  · split
    · exact ⟨_, rfl⟩
    · split
      · exact ⟨_, rfl⟩
      · split <;> exact ⟨_, rfl⟩

/-- C8: a findMatch call before load fails with the not-loaded error, and
after any successful load the verifier is loaded and findMatch returns a
verdict for every query, never an error. -/
theorem findMatch_total (v : TruthVerifier) (q : List Char) :
    (v.loaded = false → findMatch v q = Except.error VerifyError.notLoaded) ∧
    (∀ src v', load v src = (v', Except.ok ()) →
      ∀ q', ∃ r, findMatch v' q' = Except.ok r) := by
  constructor
  · intro hu
    unfold findMatch
    rw [hu]
    rfl
  · intro src v' h q'
    exact findMatch_ok_of_loaded v' q' (loaded_of_load_ok v src v' h)

theorem findMatch_total_w :
    initVerifier.loaded = false ∧
    findMatch initVerifier [] = Except.error VerifyError.notLoaded ∧
    load initVerifier (Except.ok [samplePost]) = (sampleVerifier, Except.ok ()) ∧
    ∃ r, findMatch sampleVerifier (toL "any text") = Except.ok r :=
  ⟨rfl, (findMatch_total initVerifier []).1 rfl, by decide,
    (findMatch_total initVerifier []).2 (Except.ok [samplePost]) sampleVerifier
      (by decide) (toL "any text")⟩

/-- C4: when the verifier is unloaded and the corpus source cannot be
read or parsed, load returns the load error and leaves the state
untouched, so no incomplete index survives, the verifier stays unloaded,
and a subsequent findMatch still fails with the not-loaded error. -/
theorem load_error_state (v : TruthVerifier) (e : String) (q : List Char)
    (hu : v.loaded = false) :
    load v (Except.error e) = (v, Except.error e) ∧
    findMatch v q = Except.error VerifyError.notLoaded := by
  constructor
  · unfold load
    rw [hu]
    rfl
  · unfold findMatch
    rw [hu]
    rfl

theorem load_error_state_w :
    initVerifier.loaded = false ∧
    load initVerifier (Except.error "unreadable") =
      (initVerifier, Except.error "unreadable") ∧
    findMatch initVerifier (toL "query") = Except.error VerifyError.notLoaded :=
  ⟨rfl, (load_error_state initVerifier "unreadable" (toL "query") rfl).1,
    (load_error_state initVerifier "unreadable" (toL "query") rfl).2⟩

set_option maxHeartbeats 2000000 in
/-- C10: every verdict of findMatch carries the raw query text verbatim
in its ocrText field, on every branch. -/
theorem findMatch_ocrText (v : TruthVerifier) (q : List Char)
    (r : VerificationResult) (h : findMatch v q = Except.ok r) :
    r.ocrText = q := by
  unfold findMatch at h
  split at h
  · dsimp only at h
    split at h
    · cases Except.ok.inj h
      rfl
    · split at h
      · cases Except.ok.inj h
        rfl
      · split at h
        · cases Except.ok.inj h
          rfl
        · split at h <;> (cases Except.ok.inj h; rfl)
  · exact Except.noConfusion h

theorem findMatch_ocrText_w :
    findMatch sampleVerifier (toL "zzz") = Except.ok
      { verified := false, post := none, similarity := 0,
        ocrText := toL "zzz" } ∧
    VerificationResult.ocrText
      { verified := false, post := none, similarity := 0,
        ocrText := toL "zzz" } = toL "zzz" :=
  ⟨by decide, findMatch_ocrText sampleVerifier (toL "zzz") _ (by decide)⟩

/-! ### Similarity scorer facts -/

/-- C3: when neither string contributes a bigram, the similarity is 0. -/
theorem compareTwoStrings_no_bigrams (a b : List Char)
    (ha : bigrams a = []) (hb : bigrams b = []) :
    compareTwoStrings a b = 0 := by
  unfold compareTwoStrings
  rw [ha, hb]
  rfl

theorem compareTwoStrings_no_bigrams_w :
    (bigrams ([] : List Char) = [] ∧ compareTwoStrings [] [] = 0) ∧
    (bigrams (toL "a") = [] ∧ bigrams (toL "b") = [] ∧
      compareTwoStrings (toL "a") (toL "b") = 0) :=
  ⟨⟨rfl, compareTwoStrings_no_bigrams [] [] rfl rfl⟩,
    ⟨rfl, rfl, compareTwoStrings_no_bigrams (toL "a") (toL "b") rfl rfl⟩⟩

theorem compareTwoStrings_nonneg (a b : List Char) :
    0 ≤ compareTwoStrings a b := by
  unfold compareTwoStrings
  split
  · exact le_refl 0
  · positivity

/-! ### Candidate ranking: monotonicity in shared tokens (C7) -/

theorem scoreFindD_mapInc (m : List (Nat × Nat)) (k j : Nat) :
    (scoreFind (mapInc m k) j).getD 0 =
      (scoreFind m j).getD 0 + (if j = k then 1 else 0) := by
  induction m with
  | nil =>
    by_cases hj : j = k
    · subst hj
      simp [mapInc, scoreFind]
    · simp [mapInc, scoreFind, hj, show ¬ (k = j) from fun h => hj h.symm]
  | cons p rest ih =>
    obtain ⟨k1, v⟩ := p
    by_cases h1 : k1 = k
    · subst h1
      by_cases hj : k1 = j
      · subst hj
        simp [mapInc, scoreFind]
      · simp [mapInc, scoreFind, hj, show ¬ (j = k1) from fun h => hj h.symm]
    · by_cases hj : k1 = j
      · subst hj
        simp [mapInc, scoreFind, h1, show ¬ (k1 = k) from h1]
      · simp [mapInc, scoreFind, h1, hj, ih]

theorem scoreFindD_foldl_mapInc (l : List Nat) :
    ∀ (m : List (Nat × Nat)) (j : Nat),
    (scoreFind m j).getD 0 ≤ (scoreFind (l.foldl mapInc m) j).getD 0 := by
  induction l with
  | nil => intro m j; exact le_refl _
  | cons k l ih =>
    intro m j
    calc (scoreFind m j).getD 0
        ≤ (scoreFind (mapInc m k) j).getD 0 := by
          rw [scoreFindD_mapInc]
          exact Nat.le_add_right _ _
      _ ≤ _ := ih (mapInc m k) j

theorem findCandidates_append_one (v : TruthVerifier)
    (Q : List (List Char)) (t : List Char) :
    findCandidates v (Q ++ [t]) =
      match alistFind v.wordIndex t with
      | some postIndices => postIndices.foldl mapInc (findCandidates v Q)
      | none => findCandidates v Q := by
  unfold findCandidates
  rw [List.foldl_append]
  rfl

/-- C7: extending a query word set with a further significant token of
the record never decreases the rank score of that record. -/
theorem rankScore_mono (v : TruthVerifier) (Q : List (List Char))
    (t : List Char) (i : Nat) (_hnew : t ∉ Q) (_hshared : t ∈ wordsAt v i) :
    rankScore v Q i ≤ rankScore v (Q ++ [t]) i := by
  unfold rankScore
  rw [findCandidates_append_one]
  cases halist : alistFind v.wordIndex t with
  | none => exact le_refl _
  | some postIndices => exact scoreFindD_foldl_mapInc postIndices _ i

theorem rankScore_mono_w :
    (toL "lazy" ∉ [toL "quick"]) ∧
    toL "lazy" ∈ wordsAt sampleVerifier 0 ∧
    rankScore sampleVerifier [toL "quick"] 0 ≤
      rankScore sampleVerifier ([toL "quick"] ++ [toL "lazy"]) 0 :=
  ⟨by decide, by decide,
    rankScore_mono sampleVerifier [toL "quick"] (toL "lazy") 0
      (by decide) (by decide)⟩

/-! ### The inverted index after load (C9) -/

theorem insertWord_nodup (l : List (List Char)) (w : List Char)
    (h : l.Nodup) : (insertWord l w).Nodup := by
  unfold insertWord
  split
  · exact h
  · next hw =>
      refine List.Nodup.append h (List.nodup_singleton w) ?_
      intro a ha hmem
      rw [List.mem_singleton] at hmem
      subst hmem
      exact hw ha

theorem foldl_insertWord_nodup (l : List (List Char)) :
    ∀ acc : List (List Char), acc.Nodup → (l.foldl insertWord acc).Nodup := by
  induction l with
  | nil => intro acc h; exact h
  | cons w l ih => intro acc h; exact ih _ (insertWord_nodup acc w h)

theorem extract_nodup (s : List Char) : (extractSignificantWords s).Nodup :=
  foldl_insertWord_nodup _ [] List.nodup_nil

theorem mem_of_getLast (l : List Nat) (a : Nat) (h : l.getLast? = some a) :
    a ∈ l := by
  induction l with
  | nil => exact absurd h (by simp)
  | cons b l ih =>
    cases l with
    | nil =>
      simp only [List.getLast?_singleton, Option.some.injEq] at h
      subst h
      exact List.mem_singleton_self _
    | cons c rest =>
      rw [List.getLast?_cons_cons] at h
      exact List.mem_cons_of_mem b (ih h)

theorem chain_append_k (l : List Nat) (k : Nat)
    (hc : List.Chain' (· < ·) l) (hb : ∀ j ∈ l, j < k) :
    List.Chain' (· < ·) (l ++ [k]) := by
  rw [List.chain'_append]
  refine ⟨hc, List.chain'_singleton k, ?_⟩
  intro x hx y hy
  simp only [List.head?_cons, Option.mem_def, Option.some.injEq] at hy
  subst hy
  exact hb x (mem_of_getLast l x hx)

theorem alistAppend_mem (m : List (List Char × List Nat)) (w : List Char)
    (i : Nat) (p : List Char × List Nat) (hp : p ∈ alistAppend m w i) :
    p = (w, [i]) ∨
    (p.1 = w ∧ ∃ l0, (w, l0) ∈ m ∧ p.2 = l0 ++ [i]) ∨ p ∈ m := by
  induction m with
  | nil =>
    left
    simpa [alistAppend] using hp
  | cons q rest ih =>
    obtain ⟨k, l⟩ := q
    unfold alistAppend at hp
    by_cases hk : k = w
    · subst hk
      rw [if_pos rfl] at hp
      rcases List.mem_cons.1 hp with h1 | h2
      · subst h1
        exact Or.inr (Or.inl ⟨rfl, l, List.mem_cons_self _ _, rfl⟩)
      · exact Or.inr (Or.inr (List.mem_cons_of_mem _ h2))
    · rw [if_neg hk] at hp
      rcases List.mem_cons.1 hp with h1 | h2
      · subst h1
        exact Or.inr (Or.inr (List.mem_cons_self _ _))
      · rcases ih h2 with h3 | ⟨h4, l0, hl0, h5⟩ | h6
        · exact Or.inl h3
        · exact Or.inr (Or.inl ⟨h4, l0, List.mem_cons_of_mem _ hl0, h5⟩)
        · exact Or.inr (Or.inr (List.mem_cons_of_mem _ h6))

theorem wordIndex_fold_invariant (k : Nat) (ws : List (List Char)) :
    ∀ m : List (List Char × List Nat),
    ws.Nodup →
    (∀ p ∈ m, List.Chain' (· < ·) p.2 ∧ (∀ j ∈ p.2, j < k + 1) ∧
      (p.1 ∈ ws → ∀ j ∈ p.2, j < k)) →
    ∀ p ∈ ws.foldl (fun m w => alistAppend m w k) m,
      List.Chain' (· < ·) p.2 ∧ ∀ j ∈ p.2, j < k + 1 := by
  induction ws with
  | nil =>
    intro m _ hm p hp
    rw [List.foldl_nil] at hp
    exact ⟨(hm p hp).1, (hm p hp).2.1⟩
  | cons w ws ih =>
    intro m hnd hm p hp
    rw [List.foldl_cons] at hp
    refine ih (alistAppend m w k) (List.Nodup.of_cons hnd) ?_ p hp
    intro q hq
    rcases alistAppend_mem m w k q hq with h1 | ⟨hq1, l0, hl0, hq2⟩ | h3
    · subst h1
      refine ⟨List.chain'_singleton k, ?_, ?_⟩
      · intro j hj
        rw [List.mem_singleton] at hj
        omega
      · intro hmem
        exact absurd hmem (List.nodup_cons.1 hnd).1
    · have hold := hm (w, l0) hl0
      have hlt : ∀ j ∈ l0, j < k :=
        hold.2.2 (List.mem_cons_self w ws)
      refine ⟨?_, ?_, ?_⟩
      · rw [hq2]
        exact chain_append_k l0 k hold.1 hlt
      · intro j hj
        rw [hq2] at hj
        rcases List.mem_append.1 hj with h | h
        · exact Nat.lt_succ_of_lt (hlt j h)
        · rw [List.mem_singleton] at h
          omega
      · intro hmem
        rw [hq1] at hmem
        exact absurd hmem (List.nodup_cons.1 hnd).1
    · have hold := hm q h3
      exact ⟨hold.1, hold.2.1, fun hmem => hold.2.2 (List.mem_cons_of_mem w hmem)⟩

theorem indexPost_wordIndex_invariant (v : TruthVerifier) (k : Nat)
    (post : TruthPost)
    (hv : ∀ p ∈ v.wordIndex, List.Chain' (· < ·) p.2 ∧ ∀ j ∈ p.2, j < k) :
    ∀ p ∈ (indexPost v k post).wordIndex,
      List.Chain' (· < ·) p.2 ∧ ∀ j ∈ p.2, j < k + 1 := by
  intro p hp
  refine wordIndex_fold_invariant k
    (extractSignificantWords (normalizeText post.content)) v.wordIndex
    (extract_nodup _) ?_ p hp
  intro q hq
  exact ⟨(hv q hq).1, fun j hj => Nat.lt_succ_of_lt ((hv q hq).2 j hj),
    fun _ j hj => (hv q hq).2 j hj⟩

theorem enumFold_invariant (posts : List TruthPost) :
    ∀ (k : Nat) (v : TruthVerifier),
    (∀ p ∈ v.wordIndex, List.Chain' (· < ·) p.2 ∧ ∀ j ∈ p.2, j < k) →
    ∀ p ∈ ((List.enumFrom k posts).foldl
        (fun acc q => indexPost acc q.1 q.2) v).wordIndex,
      List.Chain' (· < ·) p.2 ∧ ∀ j ∈ p.2, j < k + posts.length := by
  induction posts with
  | nil =>
    intro k v hv p hp
    rw [List.enumFrom_nil, List.foldl_nil] at hp
    exact ⟨(hv p hp).1, fun j hj => by have := (hv p hp).2 j hj; simp; omega⟩
  | cons post posts ih =>
    intro k v hv p hp
    rw [List.enumFrom_cons, List.foldl_cons] at hp
    have step := indexPost_wordIndex_invariant v k post hv
    have h2 := ih (k + 1) (indexPost v k post) step p hp
    exact ⟨h2.1, fun j hj => by have := h2.2 j hj; simp at this ⊢; omega⟩

theorem buildOn_wordIndex (v : TruthVerifier) (posts : List TruthPost)
    (hw : v.wordIndex = []) :
    ∀ p ∈ (buildOn v posts).wordIndex,
      List.Chain' (· < ·) p.2 ∧ ∀ j ∈ p.2, j < posts.length := by
  intro p hp
  have h0 : ∀ q ∈ ({ v with posts := posts } : TruthVerifier).wordIndex,
      List.Chain' (· < ·) q.2 ∧ ∀ j ∈ q.2, j < 0 := by
    intro q hq
    rw [show ({ v with posts := posts } : TruthVerifier).wordIndex =
      v.wordIndex from rfl, hw] at hq
    exact absurd hq (List.not_mem_nil q)
  have h2 := enumFold_invariant posts 0 { v with posts := posts } h0 p hp
  exact ⟨h2.1, fun j hj => by have := h2.2 j hj; omega⟩

theorem foldl_indexPost_posts (l : List (Nat × TruthPost)) :
    ∀ v : TruthVerifier,
      (l.foldl (fun acc q => indexPost acc q.1 q.2) v).posts = v.posts := by
  induction l with
  | nil => intro v; rfl
  | cons q l ih =>
    intro v
    rw [List.foldl_cons, ih]
    rfl

theorem buildOn_posts (v : TruthVerifier) (posts : List TruthPost) :
    (buildOn v posts).posts = posts :=
  foldl_indexPost_posts posts.enum { v with posts := posts }

/-- C9: after a successful load of a verifier whose index is empty (as in
a fresh instance), every posting list of the inverted index is strictly
ascending in corpus position and never lists the same position twice. -/
theorem load_postings_sorted (v : TruthVerifier)
    (src : Except String (List TruthPost)) (v' : TruthVerifier)
    (hw : v.wordIndex = [])
    (h : load v src = (v', Except.ok ())) :
    ∀ w l, (w, l) ∈ v'.wordIndex →
      List.Chain' (· < ·) l ∧ l.Nodup := by
  unfold load at h
  split at h
  · injection h with h1 h2
    subst h1
    intro w l hm
    rw [hw] at hm
    exact absurd hm (List.not_mem_nil _)
  · split at h
    · injection h with h1 h2
      exact absurd h2 (by simp)
    · injection h with h1 h2
      subst h1
      intro w l hm
      have h2 := buildOn_wordIndex v _ hw (w, l) hm
      refine ⟨h2.1, ?_⟩
      have hpw : List.Pairwise (· < ·) l := List.chain'_iff_pairwise.1 h2.1
      exact hpw.imp Nat.ne_of_lt

theorem load_postings_sorted_w :
    initVerifier.wordIndex = [] ∧
    load initVerifier (Except.ok [samplePost]) =
      (sampleVerifier, Except.ok ()) ∧
    ∀ w l, (w, l) ∈ sampleVerifier.wordIndex →
      List.Chain' (· < ·) l ∧ l.Nodup :=
  ⟨rfl, by decide,
    load_postings_sorted initVerifier (Except.ok [samplePost]) sampleVerifier
      rfl (by decide)⟩

/-! ### The findMatch verdict (C1, C2) -/

theorem candList_eq (v : TruthVerifier) (q : List Char) :
    (sortByCountDesc
      (findCandidates v (extractSignificantWords (normalizeText q)))).take 50 =
      candList v q := rfl

theorem findMatch_empty_words (v : TruthVerifier) (q : List Char)
    (hl : v.loaded = true)
    (hws : extractSignificantWords (normalizeText q) = []) :
    findMatch v q = Except.ok
      { verified := false, post := none, similarity := 0, ocrText := q } := by
  unfold findMatch
  rw [hl, if_pos rfl]
  dsimp only
  rw [if_pos hws]

theorem findMatch_empty_cands (v : TruthVerifier) (q : List Char)
    (hl : v.loaded = true)
    (hws : ¬ extractSignificantWords (normalizeText q) = [])
    (hcand : candList v q = []) :
    findMatch v q = Except.ok
      { verified := false, post := none, similarity := 0, ocrText := q } := by
  unfold findMatch
  rw [hl, if_pos rfl]
  dsimp only
  rw [if_neg hws, candList_eq, if_pos hcand]

theorem findMatch_with_best (v : TruthVerifier) (q : List Char) (i : Nat)
    (s : ℚ) (hl : v.loaded = true)
    (hws : ¬ extractSignificantWords (normalizeText q) = [])
    (hcand : ¬ candList v q = [])
    (hfold : (candList v q).foldl (bestStep v (normalizeText q)) none =
      some (i, s)) :
    findMatch v q =
      (if SIMILARITY_THRESHOLD ≤ s then
        Except.ok
          { verified := true, post := v.posts.get? i,
            similarity := s, ocrText := q }
      else
        Except.ok
          { verified := false, post := v.posts.get? i,
            similarity := s, ocrText := q }) := by
  unfold findMatch
  rw [hl, if_pos rfl]
  dsimp only
  rw [if_neg hws, candList_eq, if_neg hcand, hfold]

theorem bestFold_some (v : TruthVerifier) (nq : List Char)
    (cands : List (Nat × Nat)) :
    ∀ j : Nat,
    ∃ i, cands.foldl (bestStep v nq)
        (some (j, compareTwoStrings nq (contentAt v j))) =
        some (i, compareTwoStrings nq (contentAt v i)) ∧
      compareTwoStrings nq (contentAt v i) =
        (cands.map (fun c => compareTwoStrings nq (contentAt v c.1))).foldl
          max (compareTwoStrings nq (contentAt v j)) ∧
      (i = j ∨ i ∈ cands.map Prod.fst) := by
  induction cands with
  | nil =>
    intro j
    exact ⟨j, rfl, rfl, Or.inl rfl⟩
  | cons c cs ih =>
    intro j
    rw [List.foldl_cons, List.map_cons, List.foldl_cons]
    by_cases hlt : compareTwoStrings nq (contentAt v j) <
        compareTwoStrings nq (contentAt v c.1)
    · have hstep : bestStep v nq
          (some (j, compareTwoStrings nq (contentAt v j))) c =
          some (c.1, compareTwoStrings nq (contentAt v c.1)) := by
        simp [bestStep, hlt]
      rw [hstep]
      obtain ⟨i, h1, h2, h3⟩ := ih c.1
      refine ⟨i, h1, ?_, ?_⟩
      · rw [h2, max_eq_right (le_of_lt hlt)]
      · rcases h3 with h | h
        · rw [h]
          exact Or.inr (by
            simp only [List.map_cons]
            exact List.mem_cons_self _ _)
        · exact Or.inr (by
            simp only [List.map_cons]
            exact List.mem_cons_of_mem _ h)
    · have hstep : bestStep v nq
          (some (j, compareTwoStrings nq (contentAt v j))) c =
          some (j, compareTwoStrings nq (contentAt v j)) := by
        simp [bestStep, hlt]
      rw [hstep]
      obtain ⟨i, h1, h2, h3⟩ := ih j
      refine ⟨i, h1, ?_, ?_⟩
      · rw [h2, max_eq_left (not_lt.1 hlt)]
      · rcases h3 with h | h
        · exact Or.inl h
        · exact Or.inr (by
            simp only [List.map_cons]
            exact List.mem_cons_of_mem _ h)

theorem bestFold_none (v : TruthVerifier) (nq : List Char) (c : Nat × Nat)
    (cs : List (Nat × Nat)) :
    (c :: cs).foldl (bestStep v nq) none =
      cs.foldl (bestStep v nq)
        (some (c.1, compareTwoStrings nq (contentAt v c.1))) := by
  rw [List.foldl_cons]
  rfl

theorem candList_of_no_words (v : TruthVerifier) (q : List Char)
    (h : extractSignificantWords (normalizeText q) = []) :
    candList v q = [] := by
  unfold candList
  rw [h]
  rfl

theorem bestSim_of_empty (v : TruthVerifier) (q : List Char)
    (h : candList v q = []) : bestSim v q = 0 := by
  unfold bestSim
  rw [h]
  rfl

theorem best_of_candList (v : TruthVerifier) (q : List Char)
    (c : Nat × Nat) (cs : List (Nat × Nat)) (h : candList v q = c :: cs) :
    ∃ i, (candList v q).foldl (bestStep v (normalizeText q)) none =
        some (i, compareTwoStrings (normalizeText q) (contentAt v i)) ∧
      compareTwoStrings (normalizeText q) (contentAt v i) = bestSim v q ∧
      i ∈ (candList v q).map Prod.fst := by
  obtain ⟨i, h1, h2, h3⟩ := bestFold_some v (normalizeText q) cs c.1
  refine ⟨i, ?_, ?_, ?_⟩
  · rw [h, bestFold_none]
    exact h1
  · unfold bestSim
    rw [h, List.map_cons, List.foldl_cons,
      max_eq_right (compareTwoStrings_nonneg _ _)]
    exact h2
  · rw [h]
    rcases h3 with h4 | h4
    · rw [h4]
      simp only [List.map_cons]
      exact List.mem_cons_self _ _
    · simp only [List.map_cons]
      exact List.mem_cons_of_mem _ h4

theorem findMatch_result (v : TruthVerifier) (q : List Char)
    (hl : v.loaded = true) :
    (extractSignificantWords (normalizeText q) = [] ∧
      findMatch v q = Except.ok
        { verified := false, post := none, similarity := 0, ocrText := q }) ∨
    (candList v q = [] ∧
      findMatch v q = Except.ok
        { verified := false, post := none, similarity := 0, ocrText := q }) ∨
    (∃ i, i ∈ (candList v q).map Prod.fst ∧
      compareTwoStrings (normalizeText q) (contentAt v i) = bestSim v q ∧
      ((SIMILARITY_THRESHOLD ≤ bestSim v q ∧
        findMatch v q = Except.ok
          { verified := true, post := v.posts.get? i,
            similarity := bestSim v q, ocrText := q }) ∨
       (¬ SIMILARITY_THRESHOLD ≤ bestSim v q ∧
        findMatch v q = Except.ok
          { verified := false, post := v.posts.get? i,
            similarity := bestSim v q, ocrText := q }))) := by
  by_cases hws : extractSignificantWords (normalizeText q) = []
  · exact Or.inl ⟨hws, findMatch_empty_words v q hl hws⟩
  · by_cases hcand : candList v q = []
    · exact Or.inr (Or.inl ⟨hcand, findMatch_empty_cands v q hl hws hcand⟩)
    · obtain ⟨c, cs, hcc⟩ := List.exists_cons_of_ne_nil hcand
      obtain ⟨i, h1, h2, h3⟩ := best_of_candList v q c cs hcc
      have hbr := findMatch_with_best v q i
        (compareTwoStrings (normalizeText q) (contentAt v i)) hl hws hcand h1
      rw [h2] at hbr
      right
      right
      refine ⟨i, h3, h2, ?_⟩
      by_cases hth : SIMILARITY_THRESHOLD ≤ bestSim v q
      · left
        refine ⟨hth, ?_⟩
        rw [hbr, if_pos hth]
      · right
        refine ⟨hth, ?_⟩
        rw [hbr, if_neg hth]

/-! ### Candidate positions are valid corpus positions -/

theorem mapInc_fst (m : List (Nat × Nat)) (k : Nat) (p : Nat × Nat)
    (hp : p ∈ mapInc m k) : p.1 = k ∨ p.1 ∈ m.map Prod.fst := by
  induction m with
  | nil =>
    left
    have h : p = (k, 1) := by simpa [mapInc] using hp
    rw [h]
  | cons qe rest ih =>
    obtain ⟨k1, v1⟩ := qe
    unfold mapInc at hp
    by_cases h1 : k1 = k
    · subst h1
      rw [if_pos rfl] at hp
      rcases List.mem_cons.1 hp with h | h
      · left
        rw [h]
      · right
        simp only [List.map_cons]
        exact List.mem_cons_of_mem _ (List.mem_map_of_mem _ h)
    · rw [if_neg h1] at hp
      rcases List.mem_cons.1 hp with h | h
      · right
        rw [h]
        simp only [List.map_cons]
        exact List.mem_cons_self _ _
      · rcases ih h with h2 | h2
        · exact Or.inl h2
        · right
          simp only [List.map_cons]
          exact List.mem_cons_of_mem _ h2

theorem foldl_mapInc_fst (l : List Nat) :
    ∀ (m : List (Nat × Nat)) (p : Nat × Nat),
    p ∈ l.foldl mapInc m → p.1 ∈ l ∨ p.1 ∈ m.map Prod.fst := by
  induction l with
  | nil =>
    intro m p hp
    rw [List.foldl_nil] at hp
    exact Or.inr (List.mem_map_of_mem _ hp)
  | cons k l ih =>
    intro m p hp
    rw [List.foldl_cons] at hp
    rcases ih (mapInc m k) p hp with h | h
    · exact Or.inl (List.mem_cons_of_mem _ h)
    · obtain ⟨qq, hq, hfst⟩ := List.mem_map.1 h
      rcases mapInc_fst m k qq hq with h2 | h2
      · left
        rw [← hfst, h2]
        exact List.mem_cons_self _ _
      · right
        rw [← hfst]
        exact h2

theorem alistFind_mem (m : List (List Char × List Nat)) (w : List Char)
    (l : List Nat) (h : alistFind m w = some l) : (w, l) ∈ m := by
  induction m with
  | nil => exact absurd h (by simp [alistFind])
  | cons qe rest ih =>
    obtain ⟨k, l1⟩ := qe
    unfold alistFind at h
    by_cases hk : k = w
    · subst hk
      rw [if_pos rfl] at h
      cases Option.some.inj h
      exact List.mem_cons_self _ _
    · rw [if_neg hk] at h
      exact List.mem_cons_of_mem _ (ih h)

theorem findCandidates_fst (v : TruthVerifier) (n : Nat)
    (hb : ∀ p ∈ v.wordIndex, ∀ j ∈ p.2, j < n) (ws : List (List Char)) :
    ∀ p ∈ findCandidates v ws, p.1 < n := by
  unfold findCandidates
  suffices hgen : ∀ (ws : List (List Char)) (m : List (Nat × Nat)),
      (∀ p ∈ m, p.1 < n) →
      ∀ p ∈ ws.foldl (fun m w =>
        match alistFind v.wordIndex w with
        | some postIndices => postIndices.foldl mapInc m
        | none => m) m, p.1 < n by
    exact hgen ws [] (fun p hp => absurd hp (List.not_mem_nil p))
  intro ws
  induction ws with
  | nil =>
    intro m hm p hp
    rw [List.foldl_nil] at hp
    exact hm p hp
  | cons w ws ih =>
    intro m hm p hp
    rw [List.foldl_cons] at hp
    refine ih _ ?_ p hp
    intro qq hq
    cases halist : alistFind v.wordIndex w with
    | none =>
      rw [halist] at hq
      exact hm qq hq
    | some postIndices =>
      rw [halist] at hq
      have hq2 : qq ∈ postIndices.foldl mapInc m := hq
      rcases foldl_mapInc_fst postIndices m qq hq2 with h | h
      · exact hb (w, postIndices) (alistFind_mem _ _ _ halist) qq.1 h
      · obtain ⟨qe, hqe, hfst⟩ := List.mem_map.1 h
        rw [← hfst]
        exact hm qe hqe

theorem insertByCountDesc_mem (x p : Nat × Nat) (acc : List (Nat × Nat))
    (hp : p ∈ insertByCountDesc x acc) : p = x ∨ p ∈ acc := by
  induction acc with
  | nil =>
    left
    simpa [insertByCountDesc] using hp
  | cons y ys ih =>
    unfold insertByCountDesc at hp
    split at hp
    · rcases List.mem_cons.1 hp with h | h
      · exact Or.inl h
      · exact Or.inr h
    · rcases List.mem_cons.1 hp with h | h
      · right
        rw [h]
        exact List.mem_cons_self _ _
      · rcases ih h with h2 | h2
        · exact Or.inl h2
        · exact Or.inr (List.mem_cons_of_mem _ h2)

theorem sortByCountDesc_mem_gen (p : Nat × Nat) (l : List (Nat × Nat)) :
    ∀ acc, p ∈ l.foldl (fun acc x => insertByCountDesc x acc) acc →
      p ∈ acc ∨ p ∈ l := by
  induction l with
  | nil =>
    intro acc hp
    rw [List.foldl_nil] at hp
    exact Or.inl hp
  | cons x xs ih =>
    intro acc hp
    rw [List.foldl_cons] at hp
    rcases ih (insertByCountDesc x acc) hp with h | h
    · rcases insertByCountDesc_mem x p acc h with h2 | h2
      · right
        rw [h2]
        exact List.mem_cons_self _ _
      · exact Or.inl h2
    · exact Or.inr (List.mem_cons_of_mem _ h)

theorem sortByCountDesc_mem (l : List (Nat × Nat)) (p : Nat × Nat)
    (hp : p ∈ sortByCountDesc l) : p ∈ l := by
  rcases sortByCountDesc_mem_gen p l [] hp with h | h
  · exact absurd h (List.not_mem_nil p)
  · exact h

theorem candList_fst_lt (posts : List TruthPost) (v : TruthVerifier)
    (hv : v = buildOn initVerifier posts) (q : List Char) (i : Nat)
    (hi : i ∈ (candList v q).map Prod.fst) : i < posts.length := by
  subst hv
  obtain ⟨p, hp, rfl⟩ := List.mem_map.1 hi
  have hp2 : p ∈ sortByCountDesc (findCandidates (buildOn initVerifier posts)
      (extractSignificantWords (normalizeText q))) :=
    List.take_subset 50 _ hp
  have hp3 := sortByCountDesc_mem _ p hp2
  have hb : ∀ r ∈ (buildOn initVerifier posts).wordIndex,
      ∀ j ∈ r.2, j < posts.length := by
    intro r hr j hj
    exact (buildOn_wordIndex initVerifier posts rfl r hr).2 j hj
  exact findCandidates_fst (buildOn initVerifier posts) posts.length hb _ p hp3

theorem posts_get_some (posts : List TruthPost) (i : Nat)
    (h : i < posts.length) : ∃ p, posts.get? i = some p :=
  ⟨posts.get ⟨i, h⟩, List.get?_eq_get h⟩

set_option maxHeartbeats 1600000 in
/-- C1: in the loaded state reached by a successful load, findMatch
reports verified exactly when the best bigram similarity over the
candidate shortlist reaches the 0.7 threshold, and a verified result
carries a matched record and the best similarity as its score. -/
theorem findMatch_verified_iff (posts : List TruthPost) (v : TruthVerifier)
    (hv : v = buildOn initVerifier posts) (q : List Char)
    (r : VerificationResult) (h : findMatch v q = Except.ok r) :
    (r.verified = true ↔ SIMILARITY_THRESHOLD ≤ bestSim v q) ∧
    (r.verified = true → (∃ p, r.post = some p) ∧
      r.similarity = bestSim v q) := by
  have hl : v.loaded = true := by
    rw [hv]
    rfl
  rcases findMatch_result v q hl with ⟨hws, he⟩ | ⟨hcand, he⟩ |
    ⟨i, hmem, hgi, ⟨hth, he⟩ | ⟨hth, he⟩⟩
  · rw [he] at h
    cases Except.ok.inj h
    have h0 : bestSim v q = 0 :=
      bestSim_of_empty v q (candList_of_no_words v q hws)
    constructor
    · constructor
      · intro hfalse
        exact absurd hfalse (by simp)
      · intro hge
        rw [h0] at hge
        exact absurd hge (by norm_num [SIMILARITY_THRESHOLD])
    · intro hfalse
      exact absurd hfalse (by simp)
  · rw [he] at h
    cases Except.ok.inj h
    have h0 : bestSim v q = 0 := bestSim_of_empty v q hcand
    constructor
    · constructor
      · intro hfalse
        exact absurd hfalse (by simp)
      · intro hge
        rw [h0] at hge
        exact absurd hge (by norm_num [SIMILARITY_THRESHOLD])
    · intro hfalse
      exact absurd hfalse (by simp)
  · rw [he] at h
    cases Except.ok.inj h
    constructor
    · exact ⟨fun _ => hth, fun _ => rfl⟩
    · intro _
      refine ⟨?_, by dsimp only⟩
      have hi := candList_fst_lt posts v hv q i hmem
      have hbp : v.posts = posts := by
        rw [hv]
        exact buildOn_posts _ _
      show ∃ p, v.posts.get? i = some p
      rw [hbp]
      exact posts_get_some posts i hi
  · rw [he] at h
    cases Except.ok.inj h
    constructor
    · constructor
      · intro hfalse
        exact absurd hfalse (by simp)
      · intro hge
        exact absurd hge hth
    · intro hfalse
      exact absurd hfalse (by simp)

theorem findMatch_verified_iff_w :
    sampleVerifier = buildOn initVerifier [samplePost] ∧
    findMatch sampleVerifier (toL "") = Except.ok
      { verified := false, post := none, similarity := 0,
        ocrText := toL "" } ∧
    ¬ SIMILARITY_THRESHOLD ≤ bestSim sampleVerifier (toL "") := by
  have h : findMatch sampleVerifier (toL "") = Except.ok
      { verified := false, post := none, similarity := 0,
        ocrText := toL "" } := by decide
  refine ⟨rfl, h, ?_⟩
  intro hge
  have h2 := (findMatch_verified_iff [samplePost] sampleVerifier rfl
    (toL "") _ h).1.2 hge
  simp at h2

/-- C2: a query with no significant tokens or an empty candidate
shortlist yields exactly the empty verdict with a null post and zero
similarity, while a nonempty shortlist whose best similarity is below
the threshold yields verified false with the post still set to the best
candidate record and the similarity set to its score. -/
theorem findMatch_diagnostic (posts : List TruthPost) (v : TruthVerifier)
    (hv : v = buildOn initVerifier posts) (q : List Char) :
    ((extractSignificantWords (normalizeText q) = [] ∨ candList v q = []) →
      findMatch v q = Except.ok
        { verified := false, post := none, similarity := 0, ocrText := q }) ∧
    (candList v q ≠ [] → bestSim v q < SIMILARITY_THRESHOLD →
      ∃ i, i ∈ (candList v q).map Prod.fst ∧
        compareTwoStrings (normalizeText q) (contentAt v i) = bestSim v q ∧
        (∃ p, v.posts.get? i = some p) ∧
        findMatch v q = Except.ok
          { verified := false, post := v.posts.get? i,
            similarity := bestSim v q, ocrText := q }) := by
  have hl : v.loaded = true := by
    rw [hv]
    rfl
  constructor
  · intro hor
    have hcand : candList v q = [] := by
      rcases hor with h | h
      · exact candList_of_no_words v q h
      · exact h
    rcases findMatch_result v q hl with ⟨hws, he⟩ | ⟨hc, he⟩ |
      ⟨i, hmem, hgi, hcase⟩
    · exact he
    · exact he
    · rw [hcand] at hmem
      exact absurd hmem (by simp)
  · intro hne hlt
    rcases findMatch_result v q hl with ⟨hws, he⟩ | ⟨hc, he⟩ |
      ⟨i, hmem, hgi, ⟨hth, he⟩ | ⟨hth, he⟩⟩
    · exact absurd (candList_of_no_words v q hws) hne
    · exact absurd hc hne
    · exact absurd hth (not_le.2 hlt)
    · refine ⟨i, hmem, hgi, ?_, he⟩
      have hi := candList_fst_lt posts v hv q i hmem
      have hbp : v.posts = posts := by
        rw [hv]
        exact buildOn_posts _ _
      rw [hbp]
      exact posts_get_some posts i hi

theorem findMatch_diagnostic_w :
    candList sampleVerifier (toL "lazy winter") ≠ [] ∧
    bestSim sampleVerifier (toL "lazy winter") < SIMILARITY_THRESHOLD ∧
    ∃ i, i ∈ (candList sampleVerifier (toL "lazy winter")).map Prod.fst ∧
      compareTwoStrings (normalizeText (toL "lazy winter"))
        (contentAt sampleVerifier i) =
        bestSim sampleVerifier (toL "lazy winter") ∧
      (∃ p, sampleVerifier.posts.get? i = some p) ∧
      findMatch sampleVerifier (toL "lazy winter") = Except.ok
        { verified := false, post := sampleVerifier.posts.get? i,
          similarity := bestSim sampleVerifier (toL "lazy winter"),
          ocrText := toL "lazy winter" } := by
  have hne : candList sampleVerifier (toL "lazy winter") ≠ [] := by decide
  have hbs : bestSim sampleVerifier (toL "lazy winter") <
      SIMILARITY_THRESHOLD := by
    have hc : candList sampleVerifier (toL "lazy winter") = [(0, 1)] := by
      decide
    have h5 : ((bigrams (normalizeText (toL "lazy winter"))).bagInter
        (bigrams (contentAt sampleVerifier 0))).length = 5 := by decide
    have hl1 : (bigrams (normalizeText (toL "lazy winter"))).length = 10 := by
      decide
    have hl2 : (bigrams (contentAt sampleVerifier 0)).length = 42 := by decide
    unfold bestSim
    rw [hc]
    simp only [List.map_cons, List.map_nil, List.foldl_cons, List.foldl_nil]
    unfold compareTwoStrings
    rw [h5, hl1, hl2]
    norm_num [SIMILARITY_THRESHOLD]
  exact ⟨hne, hbs,
    (findMatch_diagnostic [samplePost] sampleVerifier rfl
      (toL "lazy winter")).2 hne hbs⟩

/-! ### The normalizer against the spec wording (C5) -/

theorem substComp (c : Char) :
    replCharF '1' 'l' (replCharF '0' 'o' (replCharF '|' 'i' c)) =
      specSubst c := by
  unfold replCharF specSubst
  by_cases h1 : c = '|'
  · subst h1
    decide
  · by_cases h2 : c = '0'
    · subst h2
      decide
    · by_cases h3 : c = '1'
      · subst h3
        decide
      · simp [h1, h2, h3]

theorem ocrFix_eq_specSubst (s : List Char) :
    ocrFix s = s.map specSubst := by
  unfold ocrFix replChar
  rw [List.map_map, List.map_map]
  have hf : ((replCharF '1' 'l' ∘ replCharF '0' 'o') ∘ replCharF '|' 'i') =
      specSubst := by
    funext c
    exact substComp c
  rw [hf]

theorem replaceSpecial_eq_amended (s : List Char) :
    replaceSpecial s =
      s.map (fun c =>
        if isAsciiAlphanum c || decide (c = '_') || isSpaceJS c then c
        else ' ') := rfl

/-- C5, counterexample: the code keeps underscores (the \w class of the
regex), while the claim as stated would replace an underscore with a
space; the two normalizers disagree on the input a_b. -/
theorem normalizeText_spec_counterexample :
    normalizeText (toL "a_b") = toL "a_b" ∧
    normalizeTextSpecStrict (toL "a_b") = toL "a b" ∧
    normalizeText (toL "a_b") ≠ normalizeTextSpecStrict (toL "a_b") := by
  refine ⟨by decide, by decide, by decide⟩

/-- C5, amended: the normalizer lowercases, applies the three OCR
substitutions to every occurrence, strips URL-like substrings, replaces
every character that is not alphanumeric, not an underscore and not
whitespace with a space, collapses whitespace runs to one space and
trims; as a total function it is deterministic and never fails. -/
theorem normalizeText_eq_spec_amended (s : List Char) :
    normalizeText s = normalizeTextSpecAmended s := by
  unfold normalizeText normalizeTextSpecAmended lowerAll
  rw [ocrFix_eq_specSubst, replaceSpecial_eq_amended]

/-! ### Idempotence of the normalizer (C6): character classes -/

theorem toNat_ofNat_valid (n : Nat) (h1 : 97 ≤ n) (h2 : n ≤ 122) :
    (Char.ofNat n).toNat = n := by
  have hv : n.isValidChar := Or.inl (by omega)
  rw [Char.ofNat, dif_pos hv]
  rfl

theorem toLower_toNat_not_upper (a : Char) :
    ¬(65 ≤ (Char.toLower a).toNat ∧ (Char.toLower a).toNat ≤ 90) := by
  unfold Char.toLower
  dsimp only
  split
  · next h =>
      rw [toNat_ofNat_valid (a.toNat + 32) (by omega) (by omega)]
      omega
  · next h => omega

theorem toLower_eq_self_of_not_upper (c : Char)
    (h : ¬(65 ≤ c.toNat ∧ c.toNat ≤ 90)) : Char.toLower c = c := by
  unfold Char.toLower
  dsimp only
  rw [if_neg]
  exact fun hc => h ⟨hc.1, hc.2⟩

theorem word_not_space (c : Char) (h : isWordChar c = true) :
    isSpaceJS c = false := by
  by_contra hs
  rw [Bool.not_eq_false] at hs
  have hmem := of_decide_eq_true hs
  fin_cases hmem <;> exact absurd h (by decide)

theorem normChar_toLower (c : Char) (h : NormChar c) :
    Char.toLower c = c := by
  rcases h with h | ⟨_, hup, _, _⟩
  · subst h
    decide
  · exact toLower_eq_self_of_not_upper c hup

theorem normChar_specSubst (c : Char) (h : NormChar c) : specSubst c = c := by
  rcases h with h | ⟨hw, _, h0, h1⟩
  · subst h
    decide
  · have hbar : c ≠ '|' := by
      intro he
      subst he
      exact absurd hw (by decide)
    unfold specSubst
    rw [if_neg hbar, if_neg h0, if_neg h1]

theorem normChar_ne_colon (c : Char) (h : NormChar c) : c ≠ ':' := by
  rcases h with h | ⟨hw, _, _, _⟩
  · subst h
    decide
  · intro he
    subst he
    exact absurd hw (by decide)

theorem normChar_space (c : Char) (h : NormChar c)
    (hs : isSpaceJS c = true) : c = ' ' := by
  rcases h with h | ⟨hw, _, _, _⟩
  · exact h
  · exact absurd hs (by rw [word_not_space c hw]; exact Bool.false_ne_true)

theorem normChar_keep (c : Char) (h : NormChar c) :
    (if isWordChar c || isSpaceJS c then c else ' ') = c := by
  rcases h with h | ⟨hw, _, _, _⟩
  · subst h
    decide
  · have hcond : (isWordChar c || isSpaceJS c) = true := by
      rw [hw]
      exact Bool.true_or _
    rw [if_pos hcond]

theorem map_pointwise_id (l : List Char) (f : Char → Char)
    (h : ∀ c ∈ l, f c = c) : l.map f = l := by
  induction l with
  | nil => rfl
  | cons a as ih =>
    rw [List.map_cons, h a (List.mem_cons_self a as),
      ih (fun c hc => h c (List.mem_cons_of_mem a hc))]

/-! ### Idempotence of the normalizer (C6): stage output tracking -/

theorem lowerAll_not_upper (s : List Char) :
    ∀ c ∈ lowerAll s, ¬(65 ≤ c.toNat ∧ c.toNat ≤ 90) := by
  intro c hc
  obtain ⟨a, _, rfl⟩ := List.mem_map.1 hc
  exact toLower_toNat_not_upper a

theorem specSubst_cases (a : Char) :
    (specSubst a = a ∧ a ≠ '|' ∧ a ≠ '0' ∧ a ≠ '1') ∨
    (specSubst a = 'i' ∨ specSubst a = 'o' ∨ specSubst a = 'l') := by
  by_cases h1 : a = '|'
  · right
    left
    unfold specSubst
    rw [if_pos h1]
  · by_cases h2 : a = '0'
    · right
      right
      left
      unfold specSubst
      rw [if_neg h1, if_pos h2]
    · by_cases h3 : a = '1'
      · right
        right
        right
        unfold specSubst
        rw [if_neg h1, if_neg h2, if_pos h3]
      · left
        refine ⟨?_, h1, h2, h3⟩
        unfold specSubst
        rw [if_neg h1, if_neg h2, if_neg h3]

theorem ocr_lower_chars (s : List Char) :
    ∀ c ∈ ocrFix (lowerAll s),
      ¬(65 ≤ c.toNat ∧ c.toNat ≤ 90) ∧ c ≠ '|' ∧ c ≠ '0' ∧ c ≠ '1' := by
  intro c hc
  rw [ocrFix_eq_specSubst] at hc
  obtain ⟨a, ha, rfl⟩ := List.mem_map.1 hc
  rcases specSubst_cases a with ⟨heq, hbar, h0, h1⟩ | h | h | h
  · rw [heq]
    exact ⟨lowerAll_not_upper s a ha, hbar, h0, h1⟩
  · rw [h]
    refine ⟨?_, by decide, by decide, by decide⟩
    decide
  · rw [h]
    refine ⟨?_, by decide, by decide, by decide⟩
    decide
  · rw [h]
    refine ⟨?_, by decide, by decide, by decide⟩
    decide

theorem removeUrlsAux_subset (f : Nat) :
    ∀ (t : List Char), ∀ c ∈ removeUrlsAux f t, c ∈ t := by
  induction f with
  | zero =>
    intro t c hc
    cases t with
    | nil => simp [removeUrlsAux] at hc
    | cons a as =>
      simp only [removeUrlsAux] at hc
      exact hc
  | succ f ih =>
    intro t c hc
    cases t with
    | nil => simp [removeUrlsAux] at hc
    | cons a as =>
      by_cases hn : urlMatchLen (a :: as) = 0
      · simp only [removeUrlsAux, hn, if_pos] at hc
        rcases List.mem_cons.1 hc with h | h
        · rw [h]
          exact List.mem_cons_self a as
        · exact List.mem_cons_of_mem a (ih as c h)
      · simp only [removeUrlsAux, hn, if_neg, if_false] at hc
        exact List.drop_subset _ _ (ih _ c hc)

theorem replaceSpecial_chars (t : List Char) :
    ∀ c ∈ replaceSpecial t,
      c = ' ' ∨ (c ∈ t ∧ isWordChar c = true) ∨ isSpaceJS c = true := by
  intro c hc
  obtain ⟨a, ha, rfl⟩ := List.mem_map.1 hc
  by_cases hcond : (isWordChar a || isSpaceJS a) = true
  · rw [if_pos hcond]
    rcases Bool.or_eq_true_iff.1 hcond with hw | hs
    · exact Or.inr (Or.inl ⟨ha, hw⟩)
    · exact Or.inr (Or.inr hs)
  · rw [if_neg hcond]
    exact Or.inl rfl

theorem collapseWsAux_chars (t : List Char) :
    ∀ (b : Bool), ∀ c ∈ collapseWsAux b t,
      c = ' ' ∨ (c ∈ t ∧ isSpaceJS c = false) := by
  induction t with
  | nil =>
    intro b c hc
    simp [collapseWsAux] at hc
  | cons a as ih =>
    intro b c hc
    unfold collapseWsAux at hc
    by_cases hsa : isSpaceJS a = true
    · rw [if_pos hsa] at hc
      cases b with
      | true =>
        rcases ih true c hc with h | ⟨h1, h2⟩
        · exact Or.inl h
        · exact Or.inr ⟨List.mem_cons_of_mem a h1, h2⟩
      | false =>
        rcases List.mem_cons.1 hc with h | h
        · exact Or.inl h
        · rcases ih true c h with h2 | ⟨h3, h4⟩
          · exact Or.inl h2
          · exact Or.inr ⟨List.mem_cons_of_mem a h3, h4⟩
    · rw [if_neg hsa] at hc
      rcases List.mem_cons.1 hc with h | h
      · subst h
        exact Or.inr ⟨List.mem_cons_self _ _, by simpa using hsa⟩
      · rcases ih false c h with h2 | ⟨h3, h4⟩
        · exact Or.inl h2
        · exact Or.inr ⟨List.mem_cons_of_mem a h3, h4⟩

theorem trimWs_subset (t : List Char) : ∀ c ∈ trimWs t, c ∈ t := by
  intro c hc
  unfold trimWs at hc
  rw [List.mem_reverse] at hc
  have h1 := List.dropWhile_subset _ hc
  rw [List.mem_reverse] at h1
  exact List.dropWhile_subset _ h1

theorem normalized_chars (x : List Char) :
    ∀ c ∈ normalizeText x, NormChar c := by
  intro c hc
  unfold normalizeText at hc
  have h1 := trimWs_subset _ c hc
  rcases collapseWsAux_chars _ false c h1 with h | ⟨h2, hns⟩
  · exact Or.inl h
  · rcases replaceSpecial_chars _ c h2 with h | ⟨h3, hw⟩ | hsp
    · exact Or.inl h
    · have h4 : c ∈ ocrFix (lowerAll x) := removeUrlsAux_subset _ _ c h3
      obtain ⟨hup, _, h0, hone⟩ := ocr_lower_chars x c h4
      exact Or.inr ⟨hw, hup, h0, hone⟩
    · rw [hns] at hsp
      exact absurd hsp Bool.false_ne_true

/-! ### Idempotence of the normalizer (C6): spacing structure -/

theorem collapseWsAux_head_true (t : List Char) :
    ∀ d, (collapseWsAux true t).head? = some d → isSpaceJS d = false := by
  induction t with
  | nil =>
    intro d hd
    simp [collapseWsAux] at hd
  | cons a as ih =>
    intro d hd
    unfold collapseWsAux at hd
    by_cases hsa : isSpaceJS a = true
    · rw [if_pos hsa, if_pos rfl] at hd
      exact ih d hd
    · rw [if_neg hsa, List.head?_cons] at hd
      cases Option.some.inj hd
      simpa using hsa

theorem collapseWsAux_chain (t : List Char) :
    ∀ b, List.Chain' NoTwoSpaces (collapseWsAux b t) := by
  induction t with
  | nil =>
    intro b
    simp [collapseWsAux]
  | cons a as ih =>
    intro b
    unfold collapseWsAux
    by_cases hsa : isSpaceJS a = true
    · rw [if_pos hsa]
      cases b with
      | true =>
        rw [if_pos rfl]
        exact ih true
      | false =>
        rw [if_neg Bool.false_ne_true]
        rw [List.chain'_cons']
        refine ⟨?_, ih true⟩
        intro y hy
        have hns := collapseWsAux_head_true as y (Option.mem_def.1 hy)
        unfold NoTwoSpaces
        rintro ⟨-, hsy⟩
        rw [hns] at hsy
        exact Bool.false_ne_true hsy
    · rw [if_neg hsa]
      rw [List.chain'_cons']
      refine ⟨?_, ih false⟩
      intro y _
      unfold NoTwoSpaces
      rintro ⟨hsa2, -⟩
      exact hsa hsa2

theorem dropWhile_chain (p : Char → Bool) (l : List Char)
    (h : List.Chain' NoTwoSpaces l) :
    List.Chain' NoTwoSpaces (l.dropWhile p) := by
  have h2 : List.Chain' NoTwoSpaces (l.takeWhile p ++ l.dropWhile p) := by
    rwa [List.takeWhile_append_dropWhile]
  exact (List.chain'_append.1 h2).2.1

theorem reverse_chain (l : List Char) (h : List.Chain' NoTwoSpaces l) :
    List.Chain' NoTwoSpaces l.reverse := by
  rw [List.chain'_reverse]
  refine h.imp ?_
  intro a b hab
  unfold NoTwoSpaces at hab ⊢
  rintro ⟨h1, h2⟩
  exact hab ⟨h2, h1⟩

theorem trimWs_chain (t : List Char) (h : List.Chain' NoTwoSpaces t) :
    List.Chain' NoTwoSpaces (trimWs t) := by
  unfold trimWs
  exact reverse_chain _ (dropWhile_chain _ _ (reverse_chain _
    (dropWhile_chain _ _ h)))

theorem dropWhile_head (p : Char → Bool) (l : List Char) :
    ∀ d, (l.dropWhile p).head? = some d → p d = false := by
  induction l with
  | nil =>
    intro d hd
    simp at hd
  | cons a as ih =>
    intro d hd
    rw [List.dropWhile_cons] at hd
    split at hd
    · exact ih d hd
    · next hpa =>
        rw [List.head?_cons] at hd
        cases Option.some.inj hd
        simpa using hpa

theorem getLast?_append_right (l1 l2 : List Char) (h : l2 ≠ []) :
    (l1 ++ l2).getLast? = l2.getLast? := by
  induction l1 with
  | nil => rfl
  | cons a as ih =>
    have hne : as ++ l2 ≠ [] := by
      intro h0
      rcases List.append_eq_nil.1 h0 with ⟨-, h2⟩
      exact h h2
    obtain ⟨b, bs, hb⟩ := List.exists_cons_of_ne_nil hne
    rw [List.cons_append, hb, List.getLast?_cons_cons, ← hb, ih]

theorem trimWs_getLast (t : List Char) :
    ∀ d, (trimWs t).getLast? = some d → isSpaceJS d = false := by
  intro d hd
  unfold trimWs at hd
  rw [List.getLast?_reverse] at hd
  exact dropWhile_head _ _ d hd

theorem trimWs_head (t : List Char) :
    ∀ d, (trimWs t).head? = some d → isSpaceJS d = false := by
  intro d hd
  unfold trimWs at hd
  rw [List.head?_reverse] at hd
  have hne : (t.dropWhile isSpaceJS).reverse.dropWhile isSpaceJS ≠ [] := by
    intro h0
    rw [h0] at hd
    simp at hd
  have hsplit := (List.takeWhile_append_dropWhile
    (p := isSpaceJS) (l := (t.dropWhile isSpaceJS).reverse)).symm
  have hlast : ((t.dropWhile isSpaceJS).reverse).getLast? =
      ((t.dropWhile isSpaceJS).reverse.dropWhile isSpaceJS).getLast? := by
    conv_lhs => rw [hsplit]
    exact getLast?_append_right _ _ hne
  rw [← hlast, List.getLast?_reverse] at hd
  exact dropWhile_head _ _ d hd

/-! ### Idempotence of the normalizer (C6): stage identities -/

theorem urlMatchLen_no_colon (s : List Char) (h : ∀ c ∈ s, c ≠ ':') :
    urlMatchLen s = 0 := by
  have h8 : s.take 8 ≠ httpsScheme := by
    intro he
    have hc : ':' ∈ s.take 8 := by
      rw [he]
      decide
    exact h ':' (List.take_subset _ _ hc) rfl
  have h7 : s.take 7 ≠ httpScheme := by
    intro he
    have hc : ':' ∈ s.take 7 := by
      rw [he]
      decide
    exact h ':' (List.take_subset _ _ hc) rfl
  unfold urlMatchLen
  rw [if_neg h8, if_neg h7]

theorem removeUrlsAux_id_no_colon (f : Nat) :
    ∀ t : List Char, (∀ c ∈ t, c ≠ ':') → removeUrlsAux f t = t := by
  induction f with
  | zero =>
    intro t h
    cases t with
    | nil => rfl
    | cons a as => rfl
  | succ f ih =>
    intro t h
    cases t with
    | nil => rfl
    | cons a as =>
      have hz := urlMatchLen_no_colon (a :: as) h
      simp only [removeUrlsAux, hz]
      rw [if_pos trivial, ih as (fun c hc => h c (List.mem_cons_of_mem a hc))]

theorem removeUrls_id_no_colon (t : List Char)
    (h : ∀ c ∈ t, c ≠ ':') : removeUrls t = t :=
  removeUrlsAux_id_no_colon t.length t h

theorem collapseWsAux_id : ∀ t : List Char,
    (∀ c ∈ t, isSpaceJS c = true → c = ' ') →
    List.Chain' NoTwoSpaces t →
    (collapseWsAux false t = t ∧
      ((∀ d, t.head? = some d → isSpaceJS d = false) →
        collapseWsAux true t = t)) := by
  intro t
  induction t with
  | nil => exact fun _ _ => ⟨rfl, fun _ => rfl⟩
  | cons a as ih =>
    intro hsp hch
    obtain ⟨ihf, iht⟩ :=
      ih (fun c hc => hsp c (List.mem_cons_of_mem a hc)) hch.tail
    constructor
    · by_cases hsa : isSpaceJS a = true
      · have ha : a = ' ' := hsp a (List.mem_cons_self a as) hsa
        have hhead : ∀ d, as.head? = some d → isSpaceJS d = false := by
          intro d hd
          have hrel := (List.chain'_cons'.1 hch).1 d (Option.mem_def.2 hd)
          unfold NoTwoSpaces at hrel
          by_contra hds
          rw [Bool.not_eq_false] at hds
          exact hrel ⟨hsa, hds⟩
        show collapseWsAux false (a :: as) = a :: as
        unfold collapseWsAux
        rw [if_pos hsa, if_neg Bool.false_ne_true, iht hhead, ha]
      · show collapseWsAux false (a :: as) = a :: as
        unfold collapseWsAux
        rw [if_neg hsa, ihf]
    · intro hhead0
      have hna : isSpaceJS a = false := hhead0 a rfl
      show collapseWsAux true (a :: as) = a :: as
      unfold collapseWsAux
      rw [if_neg (fun hp => Bool.false_ne_true (hna ▸ hp)), ihf]

theorem dropWhile_id_of_head (p : Char → Bool) (l : List Char)
    (h : ∀ d, l.head? = some d → p d = false) : l.dropWhile p = l := by
  cases l with
  | nil => rfl
  | cons a as =>
    rw [List.dropWhile_cons,
      if_neg (fun hp => Bool.false_ne_true ((h a rfl) ▸ hp))]

theorem trimWs_id (t : List Char)
    (h1 : ∀ d, t.head? = some d → isSpaceJS d = false)
    (h2 : ∀ d, t.getLast? = some d → isSpaceJS d = false) :
    trimWs t = t := by
  unfold trimWs
  rw [dropWhile_id_of_head _ t h1]
  rw [dropWhile_id_of_head _ t.reverse (fun d hd =>
    h2 d (by rwa [List.head?_reverse] at hd))]
  exact List.reverse_reverse t

/-- C6: normalization is idempotent: normalizing an already normalized
string changes nothing. -/
theorem normalizeText_idem (x : List Char) :
    normalizeText (normalizeText x) = normalizeText x := by
  have hnorm : ∀ c ∈ normalizeText x, NormChar c := normalized_chars x
  have hch : List.Chain' NoTwoSpaces (normalizeText x) := by
    unfold normalizeText
    exact trimWs_chain _ (collapseWsAux_chain _ false)
  have hh : ∀ d, (normalizeText x).head? = some d → isSpaceJS d = false := by
    unfold normalizeText
    exact trimWs_head _
  have hlast : ∀ d, (normalizeText x).getLast? = some d →
      isSpaceJS d = false := by
    unfold normalizeText
    exact trimWs_getLast _
  have e1 : lowerAll (normalizeText x) = normalizeText x :=
    map_pointwise_id _ _ (fun c hc => normChar_toLower c (hnorm c hc))
  have e2 : ocrFix (normalizeText x) = normalizeText x := by
    rw [ocrFix_eq_specSubst]
    exact map_pointwise_id _ _ (fun c hc => normChar_specSubst c (hnorm c hc))
  have e3 : removeUrls (normalizeText x) = normalizeText x :=
    removeUrls_id_no_colon _ (fun c hc => normChar_ne_colon c (hnorm c hc))
  have e4 : replaceSpecial (normalizeText x) = normalizeText x :=
    map_pointwise_id _ _ (fun c hc => normChar_keep c (hnorm c hc))
  have e5 : collapseWs (normalizeText x) = normalizeText x :=
    (collapseWsAux_id _ (fun c hc => normChar_space c (hnorm c hc)) hch).1
  have e6 : trimWs (normalizeText x) = normalizeText x :=
    trimWs_id _ hh hlast
  show trimWs (collapseWs (replaceSpecial (removeUrls (ocrFix
    (lowerAll (normalizeText x)))))) = normalizeText x
  rw [e1, e2, e3, e4, e5, e6]
